import Mathlib

/-!
Shallow embedding of the DVK-archive load/index/sort engine
(`drak_archive/file/dvk_handler.py`) and its duplicate-ID detector
(`dvk_archive/error/same_ids.py`), with theorems checking the
specification's claims against the code.

Helper modules of the repository that are not among the sources
(`drak_archive.processing.string_compare`,
`drak_archive.processing.list_processing`, the `Dvk` record class and the
`DvkDirectory` loader) are modelled from the specification; each such
definition carries a doc comment starting with `Modelled from the spec:`.
Filesystem access (`os.walk`, `os.listdir`) is abstracted into an explicit
`FileSys` value, and the record loader into a function parameter, matching
the spec's treatment of both as external collaborators.
-/

namespace DvkArchive

/-- Three-way comparison derived from a linear order, returning the
Python-style comparator values -1 / 0 / 1. -/
def cmpOf {κ : Type} [LinearOrder κ] (a b : κ) : Int :=
  if a < b then -1 else if b < a then 1 else 0

/-- Sequential composition of Python-style comparator results: the
second comparison only counts when the first one ties. -/
def chainCmp (a b : Int) : Int :=
  if a = 0 then b else a

/-- One run of a natural-alphanumeric key: a digit run is compared by its
numeric value, a non-digit run by its case-folded character codes, and a
digit run sorts before a non-digit run (`Lex` sum order: `inl < inr`). -/
abbrev RunKey : Type := Lex (Nat ⊕ List Nat)

/-- Numeric value of a run of digit characters (leading zeros ignored). -/
def digitsVal (run : List Char) : Nat :=
  run.foldl (fun n c => 10 * n + (c.toNat - 48)) 0

/-- Key of a single run: numeric value for a digit run, lower-cased
character codes for a non-digit run. -/
def runKey (run : List Char) : RunKey :=
  match run with
  | [] => toLex (Sum.inl 0)
  | c :: _ =>
    if c.isDigit then toLex (Sum.inl (digitsVal run))
    else toLex (Sum.inr (run.map (fun d => d.toLower.toNat)))

/-- Splits a character list into maximal alternating runs of digit and
non-digit characters. -/
def groupRuns : List Char → List (List Char)
  | [] => []
  | c :: rest =>
    match groupRuns rest with
    | [] => [[c]]
    | [] :: rs => [c] :: [] :: rs
    | (d :: ds) :: rs =>
      if c.isDigit = d.isDigit then (c :: d :: ds) :: rs
      else [c] :: (d :: ds) :: rs

/-- Natural-alphanumeric key of a string: the list of run keys of its
alternating digit / non-digit runs, compared lexicographically. -/
def alphanumKey (s : String) : List RunKey :=
  (groupRuns s.data).map runKey

/-- Modelled from the spec: `compare_alphanum` of the missing module
`drak_archive.processing.string_compare` — natural-alphanumeric
comparison: split each string into alternating runs of digits and
non-digits; compare run-by-run, digit runs numerically (ignoring leading
zeros), non-digit runs case-insensitively lexically; a run-wise strict
prefix is smaller. -/
def compare_alphanum (s t : String) : Int :=
  cmpOf (alphanumKey s) (alphanumKey t)

/-- Character codes of a string, for plain lexical comparison. -/
def strCodes (s : String) : List Nat :=
  s.data.map Char.toNat

/-- Modelled from the spec: `compare_strings` of the missing module
`drak_archive.processing.string_compare` — plain lexical string
comparison. -/
def compare_strings (s t : String) : Int :=
  cmpOf (strCodes s) (strCodes t)

/-- Modelled from the spec: `list_to_string` of the missing module
`drak_archive.processing.list_processing` — joins a list of strings
(an artist list) into a single string. -/
def list_to_string (l : List String) : String :=
  String.intercalate "," l

/-- Modelled from the spec: `clean_list` of the missing module
`drak_archive.processing.list_processing` — deduplicates a list. -/
def clean_list (l : List String) : List String :=
  l.dedup

/-- Modelled from the spec: the `Dvk` record class (not among the
sources) — an external collaborator exposing id, title, artists, rating,
views, publication time and the backing file path.  The default value is
the sentinel empty record produced by the `Dvk()` constructor and
returned by the index accessors on an out-of-range index. -/
structure Dvk where
  id : String := ""
  title : String := ""
  artists : List String := []
  rating : Int := 0
  views : Int := 0
  time : String := ""
  file : String := ""
deriving DecidableEq

/-- The sentinel empty record (`Dvk()`). -/
def emptyDvk : Dvk := {}

/-- State of a `DvkHandler` (`drak_archive/file/dvk_handler.py`):
loaded records, the sorted-index list, the loaded leaf-directory paths,
and the `group_artists` flag stored by `sort_dvks`. -/
structure DvkHandler where
  dvks : List Dvk := []
  sorted : List Nat := []
  paths : List String := []
  group_artists : Bool := false
deriving DecidableEq

/-- The freshly constructed handler (`DvkHandler.__init__`). -/
def initHandler : DvkHandler := {}

/-- `DvkHandler.reset_sorted`: resets the sorted list to the identity
order `[0, 1, ..., n-1]`. -/
def reset_sorted (h : DvkHandler) : DvkHandler :=
  { h with sorted := List.range h.dvks.length }

/-- `DvkHandler.get_size`: the length of the sorted index list. -/
def get_size (h : DvkHandler) : Nat :=
  h.sorted.length

/-- `DvkHandler.get_dvk_direct`: the record at a direct index, or the
sentinel empty record when the index is out of range. -/
def get_dvk_direct (h : DvkHandler) (index_int : Int) : Dvk :=
  if -1 < index_int ∧ index_int < (get_size h : Int) then
    h.dvks.getD index_int.toNat emptyDvk
  else emptyDvk

/-- `DvkHandler.get_dvk_sorted`: the record at a sorted index (indirect
through the `sorted` list), or the sentinel empty record when the index
is out of range. -/
def get_dvk_sorted (h : DvkHandler) (index_int : Int) : Dvk :=
  if -1 < index_int ∧ index_int < (get_size h : Int) then
    get_dvk_direct h ((h.sorted.getD index_int.toNat 0 : Nat) : Int)
  else emptyDvk

/-- Abstract filesystem, standing for `os.walk` and `os.listdir`:
`walk r` lists every directory reachable from the root `r` (the root
included), `listdir p` lists the entries directly inside `p`.  Paths are
taken to be absolute path strings. -/
structure FileSys where
  walk : String → List String
  listdir : String → List String

/-- Whether a directory directly contains an entry whose name ends in
the record-file suffix `.dvk`. -/
def hasDvkFile (fs : FileSys) (p : String) : Bool :=
  (fs.listdir p).any (fun f => f.endsWith ".dvk")

/-- `DvkHandler.get_directories`: all directories reachable from the
given roots that directly contain a `.dvk` file, deduplicated and
sorted; `None` inputs and `None` or empty-string entries contribute
nothing. -/
def get_directories (fs : FileSys)
    (directory_strs : Option (List (Option String))) : List String :=
  match directory_strs with
  | none => []
  | some ds =>
    let paths := ds.foldl (fun acc d =>
      match d with
      | none => acc
      | some s =>
        if s = "" then acc
        else acc ++ (fs.walk s).filter (hasDvkFile fs)) []
    (clean_list paths).mergeSort (fun a b => decide (a ≤ b))

/-- `DvkHandler.load_dvks`: clears the loaded records, scans the roots
for leaf directories, loads each directory's records with the external
loader `readDvks` (the `DvkDirectory` collaborator) in leaf-directory
order, and resets the sorted list to the identity order. -/
def load_dvks (fs : FileSys) (readDvks : String → List Dvk)
    (h : DvkHandler) (directory_strs : Option (List (Option String))) :
    DvkHandler :=
  let paths := get_directories fs directory_strs
  let dvks := paths.foldl (fun acc p => acc ++ readDvks p) []
  reset_sorted { h with dvks := dvks, paths := paths }

/-- `DvkHandler.compare_artists`: natural-alphanumeric comparison of the
two records' artist lists joined into single strings. -/
def compare_artists (x y : Dvk) : Int :=
  compare_alphanum (list_to_string x.artists) (list_to_string y.artists)

/-- `DvkHandler.compare_alpha`: artist comparison when grouping, then
titles alpha-numerically, then publication times lexically; 0 when
either argument is `None`. -/
def compare_alpha (group_artists : Bool) (x y : Option Dvk) : Int :=
  match x, y with
  | some x, some y =>
    let r1 : Int := if group_artists then compare_artists x y else 0
    let r2 : Int := if r1 = 0 then compare_alphanum x.title y.title else r1
    if r2 = 0 then compare_strings x.time y.time else r2
  | _, _ => 0

/-- `DvkHandler.compare_time`: artist comparison when grouping, then
publication times lexically, then titles alpha-numerically; 0 when
either argument is `None`. -/
def compare_time (group_artists : Bool) (x y : Option Dvk) : Int :=
  match x, y with
  | some x, some y =>
    let r1 : Int := if group_artists then compare_artists x y else 0
    let r2 : Int := if r1 = 0 then compare_strings x.time y.time else r1
    if r2 = 0 then compare_alphanum x.title y.title else r2
  | _, _ => 0

/-- `DvkHandler.compare_ratings`: artist comparison when grouping, then
ratings numerically, then the full alphabetic comparator; 0 when either
argument is `None`. -/
def compare_ratings (group_artists : Bool) (x y : Option Dvk) : Int :=
  match x, y with
  | some x, some y =>
    let r1 : Int := if group_artists then compare_artists x y else 0
    if r1 = 0 then
      if x.rating < y.rating then -1
      else if y.rating < x.rating then 1
      else compare_alpha group_artists (some x) (some y)
    else r1
  | _, _ => 0

/-- `DvkHandler.compare_views`: artist comparison when grouping, then
view counts numerically, then the full alphabetic comparator; 0 when
either argument is `None`. -/
def compare_views (group_artists : Bool) (x y : Option Dvk) : Int :=
  match x, y with
  | some x, some y =>
    let r1 : Int := if group_artists then compare_artists x y else 0
    if r1 = 0 then
      if x.views < y.views then -1
      else if y.views < x.views then 1
      else compare_alpha group_artists (some x) (some y)
    else r1
  | _, _ => 0

/-- The comparator `sort_dvks` selects for a (non-`None`) sort type:
`"t"` time, `"r"` ratings, `"v"` views, anything else alphabetic. -/
def comparator_of (sort_type : String) (group_artists : Bool) :
    Option Dvk → Option Dvk → Int :=
  if sort_type = "t" then compare_time group_artists
  else if sort_type = "r" then compare_ratings group_artists
  else if sort_type = "v" then compare_views group_artists
  else compare_alpha group_artists

/-- `DvkHandler.sort_dvks`: stores the `group_artists` flag and, when
the sort type is not `None` and the index is non-empty, stably sorts
the records list with the selected comparator (Python's `sorted` with
`cmp_to_key` is a stable merge sort). -/
def sort_dvks (h : DvkHandler) (sort_type : Option String)
    (group_artists_bool : Bool) : DvkHandler :=
  let h1 := { h with group_artists := group_artists_bool }
  match sort_type with
  | none => h1
  | some st =>
    if 0 < get_size h1 then
      let le := fun a b => decide (comparator_of st group_artists_bool (some a) (some b) ≤ 0)
      { h1 with dvks := h1.dvks.mergeSort le }
    else h1

/-- The ids of the records of a handler in sorted-index order, as
collected by the first loop of `same_ids`. -/
def idsOf (h : DvkHandler) : List String :=
  (List.range (get_size h)).map (fun i => (get_dvk_sorted h (Int.ofNat i)).id)

/-- One step of the inner loop of the `same_ids` double scan at outer
index `i` and inner index `k`: on an id match, mark `i` first when it is
still unmarked, then mark `k`. -/
def innerStep (ids : List String) (i : Nat) (s : List Nat) (k : Nat) :
    List Nat :=
  if ids.getD i "" = ids.getD k "" then
    (if i ∈ s then s else s ++ [i]) ++ [k]
  else s

/-- The inner loop of the `same_ids` double scan: scans all positions
after `i`. -/
def innerScan (ids : List String) (i : Nat) (s : List Nat) : List Nat :=
  (List.range' (i + 1) (ids.length - (i + 1))).foldl (innerStep ids i) s

/-- One step of the outer loop of the `same_ids` double scan: an already
marked outer index is skipped. -/
def outerStep (ids : List String) (s : List Nat) (i : Nat) : List Nat :=
  if i ∈ s then s else innerScan ids i s

/-- The full double scan of `same_ids` over the collected id list: the
positions marked as members of identical-id groups, in marking order. -/
def sameIdsPositions (ids : List String) : List Nat :=
  (List.range ids.length).foldl (outerStep ids) []

/-- `same_ids` (`dvk_archive/error/same_ids.py`): uses the given handler
when there is one, otherwise loads a fresh one from the given
directories; sorts it alphabetically with artist grouping; collects the
ids in sorted order; runs the double scan; and maps the marked positions
back to file paths.  Returns the handler state after the call (the
caller-visible mutation) together with the resulting path list. -/
def same_ids (fs : FileSys) (readDvks : String → List Dvk)
    (dvk_directories : Option (List (Option String)))
    (dvk_handler : Option DvkHandler) : DvkHandler × List String :=
  let handler :=
    match dvk_handler with
    | some hd => hd
    | none => load_dvks fs readDvks initHandler dvk_directories
  let h := sort_dvks handler (some "a") true
  let ids := idsOf h
  let s_ids := sameIdsPositions ids
  (h, s_ids.map (fun i => (get_dvk_sorted h (Int.ofNat i)).file))

/-- The positions after position `i` holding the same id as position
`i` — the inner-scan matches of an outer index. -/
def matchesAfter (ids : List String) (i : Nat) : List Nat :=
  (List.range' (i + 1) (ids.length - (i + 1))).filter
    (fun k => decide (ids.getD i "" = ids.getD k ""))

/-- Position `i` heads a duplicate cluster: it is the first occurrence
of its id and at least one later position holds the same id. -/
def isClusterHead (ids : List String) (i : Nat) : Prop :=
  (∀ j < i, ids.getD j "" ≠ ids.getD i "") ∧ matchesAfter ids i ≠ []

instance (ids : List String) (i : Nat) : Decidable (isClusterHead ids i) := by
  unfold isClusterHead
  infer_instance

/-- The duplicate clusters up to outer index `n`: each cluster is its
head followed by the head's matches in ascending position order, and
clusters follow the ascending order of their heads. -/
def dupClustersUpTo (ids : List String) (n : Nat) : List Nat :=
  (((List.range n).filter (fun i => decide (isClusterHead ids i))).map
    (fun i => i :: matchesAfter ids i)).flatten

/-- All duplicate clusters of an id list, flattened in emission order. -/
def dupClusters (ids : List String) : List Nat :=
  dupClustersUpTo ids ids.length

/-- The artist key of a record: the natural-alphanumeric key of its
artist list joined into one string. -/
def akey (x : Dvk) : List RunKey :=
  alphanumKey (list_to_string x.artists)

/-- The artist-grouping key: the artist key when grouping is on, a
constant otherwise (so that it compares equal everywhere). -/
def agKey (gb : Bool) (x : Dvk) : List RunKey :=
  if gb then akey x else []

/-- The natural-alphanumeric key of a record's title. -/
def titleKey (x : Dvk) : List RunKey :=
  alphanumKey x.title

/-- The lexical key of a record's publication time. -/
def timeKey (x : Dvk) : List Nat :=
  strCodes x.time

/-- The total sort key realised by the alphabetic comparator:
artist group, then title, then time, lexicographically. -/
def alphaK (gb : Bool) (x : Dvk) :
    Lex ((List RunKey) × Lex ((List RunKey) × List Nat)) :=
  toLex (agKey gb x, toLex (titleKey x, timeKey x))

/-- The total sort key realised by the time comparator:
artist group, then time, then title, lexicographically. -/
def timeK (gb : Bool) (x : Dvk) :
    Lex ((List RunKey) × Lex ((List Nat) × List RunKey)) :=
  toLex (agKey gb x, toLex (timeKey x, titleKey x))

/-- The total sort key realised by the ratings comparator:
artist group, then rating, then title, then time. -/
def ratingK (gb : Bool) (x : Dvk) :
    Lex ((List RunKey) × Lex (Int × Lex ((List RunKey) × List Nat))) :=
  toLex (agKey gb x, toLex (x.rating, toLex (titleKey x, timeKey x)))

/-- The total sort key realised by the views comparator:
artist group, then view count, then title, then time. -/
def viewsK (gb : Bool) (x : Dvk) :
    Lex ((List RunKey) × Lex (Int × Lex ((List RunKey) × List Nat))) :=
  toLex (agKey gb x, toLex (x.views, toLex (titleKey x, timeKey x)))

/-- The handler invariant stated by the spec: the sorted-index list is a
permutation of `0 .. n-1` where `n` is the number of loaded records (in
particular the two lists have equal length). -/
def Inv (h : DvkHandler) : Prop :=
  h.sorted.Perm (List.range h.dvks.length)

instance (h : DvkHandler) : Decidable (Inv h) := by
  unfold Inv
  infer_instance

/-! ### Groundwork: three-way comparisons derived from linear orders -/

theorem cmpOf_self {κ : Type} [LinearOrder κ] (a : κ) : cmpOf a a = 0 := by
  simp [cmpOf]

theorem cmpOf_eq_zero_iff {κ : Type} [LinearOrder κ] (a b : κ) :
    cmpOf a b = 0 ↔ a = b := by
  unfold cmpOf
  split_ifs with h1 h2
  · simpa using h1.ne
  · simpa using h2.ne'
  · simpa using le_antisymm (le_of_not_lt h2) (le_of_not_lt h1)

theorem cmpOf_le_zero_iff {κ : Type} [LinearOrder κ] (a b : κ) :
    cmpOf a b ≤ 0 ↔ a ≤ b := by
  unfold cmpOf
  split_ifs with h1 h2
  · simpa using le_of_lt h1
  · simpa using not_le.mpr h2
  · simpa using le_of_not_lt h2

theorem chainCmp_zero (b : Int) : chainCmp 0 b = b := by
  simp [chainCmp]

theorem chainCmp_assoc (a b c : Int) :
    chainCmp (chainCmp a b) c = chainCmp a (chainCmp b c) := by
  by_cases ha : a = 0 <;> simp [chainCmp, ha]

theorem chainCmp_absorb (a c t : Int) :
    chainCmp a (chainCmp c (chainCmp a t)) = chainCmp a (chainCmp c t) := by
  by_cases ha : a = 0 <;> simp [chainCmp, ha]

theorem cmpOf_toLex_chain {κ₁ κ₂ : Type} [LinearOrder κ₁] [LinearOrder κ₂]
    (a a' : κ₁) (b b' : κ₂) :
    cmpOf (toLex (a, b)) (toLex (a', b')) = chainCmp (cmpOf a a') (cmpOf b b') := by
  rcases lt_trichotomy a a' with h | h | h
  · have h1 : toLex (a, b) < toLex (a', b') := by
      rw [Prod.Lex.lt_iff]
      exact Or.inl h
    have h2 : cmpOf a a' = -1 := by
      unfold cmpOf
      simp [h]
    rw [cmpOf, if_pos h1, h2]
    simp [chainCmp]
  · subst h
    have h1 : cmpOf a a = 0 := cmpOf_self a
    rw [h1, chainCmp_zero, cmpOf, cmpOf]
    have hxy : toLex (a, b) < toLex (a, b') ↔ b < b' := by
      rw [Prod.Lex.lt_iff]
      simp
    have hyx : toLex (a, b') < toLex (a, b) ↔ b' < b := by
      rw [Prod.Lex.lt_iff]
      simp
    simp only [hxy, hyx]
  · have h1 : ¬ toLex (a, b) < toLex (a', b') := by
      rw [Prod.Lex.lt_iff]
      rintro (hlt | ⟨he, _⟩)
      · exact lt_asymm h hlt
      · exact absurd he.symm (ne_of_lt h)
    have h2 : toLex (a', b') < toLex (a, b) := by
      rw [Prod.Lex.lt_iff]
      exact Or.inl h
    have h3 : cmpOf a a' = 1 := by
      unfold cmpOf
      simp [h, lt_asymm h]
    rw [cmpOf, if_neg h1, if_pos h2, h3]
    simp [chainCmp]

theorem cmpOf_rating_chain {κ : Type} [LinearOrder κ] (a b : κ) (d : Int) :
    (if a < b then (-1 : Int) else if b < a then 1 else d) =
      chainCmp (cmpOf a b) d := by
  rcases lt_trichotomy a b with h | h | h
  · simp [cmpOf, chainCmp, h]
  · subst h
    simp [cmpOf, chainCmp]
  · simp [cmpOf, chainCmp, h, lt_asymm h]

/-! ### Each comparator realises the comparison of a total sort key -/

theorem if_artists_eq (gb : Bool) (x y : Dvk) :
    (if gb then compare_artists x y else (0 : Int)) =
      cmpOf (agKey gb x) (agKey gb y) := by
  cases gb
  · simp [agKey, cmpOf_self]
  · simp [agKey, compare_artists, akey, compare_alphanum]

theorem compare_alpha_eq (gb : Bool) (x y : Dvk) :
    compare_alpha gb (some x) (some y) = cmpOf (alphaK gb x) (alphaK gb y) := by
  have h1 : compare_alpha gb (some x) (some y)
      = chainCmp (chainCmp (if gb then compare_artists x y else 0)
          (cmpOf (titleKey x) (titleKey y))) (cmpOf (timeKey x) (timeKey y)) := rfl
  simp only [h1, if_artists_eq, chainCmp_assoc, alphaK, cmpOf_toLex_chain]

theorem compare_time_eq (gb : Bool) (x y : Dvk) :
    compare_time gb (some x) (some y) = cmpOf (timeK gb x) (timeK gb y) := by
  have h1 : compare_time gb (some x) (some y)
      = chainCmp (chainCmp (if gb then compare_artists x y else 0)
          (cmpOf (timeKey x) (timeKey y))) (cmpOf (titleKey x) (titleKey y)) := rfl
  simp only [h1, if_artists_eq, chainCmp_assoc, timeK, cmpOf_toLex_chain]

theorem compare_ratings_eq (gb : Bool) (x y : Dvk) :
    compare_ratings gb (some x) (some y) = cmpOf (ratingK gb x) (ratingK gb y) := by
  have h1 : compare_ratings gb (some x) (some y)
      = chainCmp (if gb then compare_artists x y else 0)
          (if x.rating < y.rating then -1 else if y.rating < x.rating then 1
           else compare_alpha gb (some x) (some y)) := rfl
  simp only [h1, cmpOf_rating_chain, compare_alpha_eq, if_artists_eq, alphaK,
    ratingK, cmpOf_toLex_chain]
  exact chainCmp_absorb _ _ _

theorem compare_views_eq (gb : Bool) (x y : Dvk) :
    compare_views gb (some x) (some y) = cmpOf (viewsK gb x) (viewsK gb y) := by
  have h1 : compare_views gb (some x) (some y)
      = chainCmp (if gb then compare_artists x y else 0)
          (if x.views < y.views then -1 else if y.views < x.views then 1
           else compare_alpha gb (some x) (some y)) := rfl
  simp only [h1, cmpOf_rating_chain, compare_alpha_eq, if_artists_eq, alphaK,
    viewsK, cmpOf_toLex_chain]
  exact chainCmp_absorb _ _ _

/-! ### Sorting with a key-realised comparator -/

theorem sortLe_trans {κ : Type} [LinearOrder κ] {cmp : Option Dvk → Option Dvk → Int}
    {K : Dvk → κ} (hK : ∀ a b, cmp (some a) (some b) = cmpOf (K a) (K b)) :
    ∀ a b c : Dvk, decide (cmp (some a) (some b) ≤ 0) = true →
      decide (cmp (some b) (some c) ≤ 0) = true →
      decide (cmp (some a) (some c) ≤ 0) = true := by
  intro a b c h1 h2
  simp only [decide_eq_true_eq, hK, cmpOf_le_zero_iff] at h1 h2 ⊢
  exact le_trans h1 h2

theorem sortLe_total {κ : Type} [LinearOrder κ] {cmp : Option Dvk → Option Dvk → Int}
    {K : Dvk → κ} (hK : ∀ a b, cmp (some a) (some b) = cmpOf (K a) (K b)) :
    ∀ a b : Dvk, (decide (cmp (some a) (some b) ≤ 0) ||
      decide (cmp (some b) (some a) ≤ 0)) = true := by
  intro a b
  simp only [Bool.or_eq_true, decide_eq_true_eq, hK, cmpOf_le_zero_iff]
  exact le_total _ _

theorem comparator_of_sorted_decide (s : String) (gb : Bool) (l : List Dvk) :
    (l.mergeSort (fun a b => decide (comparator_of s gb (some a) (some b) ≤ 0))).Pairwise
      (fun a b => decide (comparator_of s gb (some a) (some b) ≤ 0) = true) := by
  by_cases ht : s = "t"
  · simp only [comparator_of, ht, if_pos rfl]
    exact List.sorted_mergeSort (sortLe_trans (compare_time_eq gb))
      (sortLe_total (compare_time_eq gb)) l
  · by_cases hr : s = "r"
    · simp only [comparator_of, ht, hr, if_neg, if_pos rfl, ite_false, ite_true]
      exact List.sorted_mergeSort (sortLe_trans (compare_ratings_eq gb))
        (sortLe_total (compare_ratings_eq gb)) l
    · by_cases hv : s = "v"
      · simp only [comparator_of, ht, hr, hv, ite_false, ite_true]
        exact List.sorted_mergeSort (sortLe_trans (compare_views_eq gb))
          (sortLe_total (compare_views_eq gb)) l
      · simp only [comparator_of, ht, hr, hv, ite_false]
        exact List.sorted_mergeSort (sortLe_trans (compare_alpha_eq gb))
          (sortLe_total (compare_alpha_eq gb)) l

theorem comparator_of_mergeSort_idem (s : String) (gb : Bool) (l : List Dvk) :
    ((l.mergeSort (fun a b => decide (comparator_of s gb (some a) (some b) ≤ 0))).mergeSort
      (fun a b => decide (comparator_of s gb (some a) (some b) ≤ 0))) =
    l.mergeSort (fun a b => decide (comparator_of s gb (some a) (some b) ≤ 0)) :=
  List.mergeSort_of_sorted (comparator_of_sorted_decide s gb l)

theorem comparator_of_pairwise (s : String) (gb : Bool) (l : List Dvk) :
    (l.mergeSort (fun a b => decide (comparator_of s gb (some a) (some b) ≤ 0))).Pairwise
      (fun a b => comparator_of s gb (some a) (some b) ≤ 0) :=
  (comparator_of_sorted_decide s gb l).imp (fun h => of_decide_eq_true h)

/-! ### Structural facts about `sort_dvks` -/

theorem sort_dvks_none (h : DvkHandler) (gb : Bool) :
    sort_dvks h none gb = { h with group_artists := gb } := rfl

theorem sort_dvks_some (h : DvkHandler) (st : String) (gb : Bool)
    (hsz : 0 < get_size h) :
    sort_dvks h (some st) gb =
      { h with
        group_artists := gb,
        dvks := h.dvks.mergeSort
          (fun a b => decide (comparator_of st gb (some a) (some b) ≤ 0)) } := by
  have hsz' : 0 < get_size { h with group_artists := gb } := hsz
  simp only [sort_dvks]
  rw [if_pos hsz']

theorem sort_dvks_some_empty (h : DvkHandler) (st : String) (gb : Bool)
    (hsz : ¬ 0 < get_size h) :
    sort_dvks h (some st) gb = { h with group_artists := gb } := by
  have hsz' : ¬ 0 < get_size { h with group_artists := gb } := hsz
  simp only [sort_dvks]
  rw [if_neg hsz']

theorem sort_dvks_sorted_eq (h : DvkHandler) (st : Option String) (gb : Bool) :
    (sort_dvks h st gb).sorted = h.sorted := by
  cases st with
  | none => rfl
  | some s =>
    by_cases hsz : 0 < get_size h
    · rw [sort_dvks_some h s gb hsz]
    · rw [sort_dvks_some_empty h s gb hsz]

theorem get_size_sort_dvks (h : DvkHandler) (st : Option String) (gb : Bool) :
    get_size (sort_dvks h st gb) = get_size h := by
  unfold get_size
  rw [sort_dvks_sorted_eq]

theorem sort_dvks_dvks_perm (h : DvkHandler) (st : Option String) (gb : Bool) :
    (sort_dvks h st gb).dvks.Perm h.dvks := by
  cases st with
  | none => exact List.Perm.refl _
  | some s =>
    by_cases hsz : 0 < get_size h
    · rw [sort_dvks_some h s gb hsz]
      exact List.mergeSort_perm _ _
    · rw [sort_dvks_some_empty h s gb hsz]

/-! ### Claims about sorting (C2, C5, C7) -/

/-- C7: sorting is idempotent — calling `sort_dvks` twice with the same
sort type and grouping flag yields the same handler state (in particular
the same record order) as calling it once. -/
theorem c7_sort_idempotent (h : DvkHandler) (st : Option String) (gb : Bool) :
    sort_dvks (sort_dvks h st gb) st gb = sort_dvks h st gb := by
  cases st with
  | none => rfl
  | some s =>
    obtain ⟨d, so, p, g⟩ := h
    by_cases hsz : 0 < get_size (⟨d, so, p, g⟩ : DvkHandler)
    · have hsz2 : 0 < get_size (sort_dvks (⟨d, so, p, g⟩ : DvkHandler) (some s) gb) := by
        rw [get_size_sort_dvks]
        exact hsz
      rw [sort_dvks_some _ s gb hsz2, sort_dvks_some _ s gb hsz]
      simp [comparator_of_mergeSort_idem]
    · have hsz2 : ¬ 0 < get_size (sort_dvks (⟨d, so, p, g⟩ : DvkHandler) (some s) gb) := by
        rw [get_size_sort_dvks]
        exact hsz
      rw [sort_dvks_some_empty _ s gb hsz]
      rw [sort_dvks_some_empty _ s gb (by simpa [get_size] using hsz)]

/-- C2 counterexample: with an absent (`None`) sort type, `sort_dvks`
does not sort at all — on a handler holding titles `"b", "a"` the
records stay in their unsorted order, which is not sorted under the
alphabetic comparator, contradicting the claim that an absent mode
defaults to the alphabetic comparator. -/
theorem c2_counterexample :
    (sort_dvks { dvks := [{ title := "b" }, { title := "a" }], sorted := [0, 1] }
        none false).dvks = [{ title := "b" }, { title := "a" }] ∧
    ¬ ((sort_dvks { dvks := [{ title := "b" }, { title := "a" }], sorted := [0, 1] }
        none false).dvks.Pairwise
          (fun a b => compare_alpha false (some a) (some b) ≤ 0)) := by
  constructor
  · rfl
  · decide

/-- C2 (amended): for a loaded non-empty index and a non-`None` sort
type, `sort_dvks` permutes the records into a sequence sorted under the
comparator selected by the mode, where `"t"` selects the time
comparator, `"r"` the ratings comparator, `"v"` the views comparator,
and any other string the alphabetic comparator; an absent (`None`) sort
type leaves the records unchanged apart from storing the grouping
flag. -/
theorem c2_sort_modes (h : DvkHandler) (st : String) (gb : Bool)
    (hsz : 0 < get_size h) :
    (sort_dvks h (some st) gb).dvks.Perm h.dvks ∧
    (sort_dvks h (some st) gb).dvks.Pairwise
      (fun a b => comparator_of st gb (some a) (some b) ≤ 0) ∧
    comparator_of "t" gb = compare_time gb ∧
    comparator_of "r" gb = compare_ratings gb ∧
    comparator_of "v" gb = compare_views gb ∧
    (st ≠ "t" → st ≠ "r" → st ≠ "v" → comparator_of st gb = compare_alpha gb) ∧
    (∀ gb2 : Bool, sort_dvks h none gb2 = { h with group_artists := gb2 }) := by
  refine ⟨sort_dvks_dvks_perm h (some st) gb, ?_, ?_, ?_, ?_, ?_, fun gb2 => rfl⟩
  · rw [sort_dvks_some h st gb hsz]
    exact comparator_of_pairwise st gb h.dvks
  · simp [comparator_of]
  · simp [comparator_of]
  · simp [comparator_of]
  · intro h1 h2 h3
    simp [comparator_of, h1, h2, h3]

/-- C2 witness: the amended sorting theorem applied to a concrete
one-record handler. -/
theorem c2_witness :
    (sort_dvks { dvks := [{ title := "x" }], sorted := [0] } (some "t") false).dvks.Perm
      [{ title := "x" }] ∧
    comparator_of "t" false = compare_time false :=
  ⟨(c2_sort_modes { dvks := [{ title := "x" }], sorted := [0] } "t" false (by decide)).1,
   (c2_sort_modes { dvks := [{ title := "x" }], sorted := [0] } "t" false (by decide)).2.2.1⟩

/-- C5: with artist grouping on, every comparator first compares the
joined artist strings alpha-numerically and a non-zero result
short-circuits; with grouping off or on an artist tie, the time
comparator compares publication times lexically falling back to
alpha-numeric titles, and the ratings and views comparators compare
their numeric field falling back to the full alphabetic comparator. -/
theorem c5_comparator_structure (gb : Bool) (x y : Dvk) :
    (compare_artists x y =
      compare_alphanum (list_to_string x.artists) (list_to_string y.artists)) ∧
    (gb = true → compare_artists x y ≠ 0 →
      compare_alpha gb (some x) (some y) = compare_artists x y ∧
      compare_time gb (some x) (some y) = compare_artists x y ∧
      compare_ratings gb (some x) (some y) = compare_artists x y ∧
      compare_views gb (some x) (some y) = compare_artists x y) ∧
    ((gb = false ∨ compare_artists x y = 0) →
      compare_time gb (some x) (some y) =
        (if compare_strings x.time y.time = 0 then compare_alphanum x.title y.title
         else compare_strings x.time y.time) ∧
      compare_ratings gb (some x) (some y) =
        (if x.rating < y.rating then -1 else if y.rating < x.rating then 1
         else compare_alpha gb (some x) (some y)) ∧
      compare_views gb (some x) (some y) =
        (if x.views < y.views then -1 else if y.views < x.views then 1
         else compare_alpha gb (some x) (some y))) := by
  refine ⟨rfl, ?_, ?_⟩
  · rintro rfl hne
    have e1 : compare_alpha true (some x) (some y)
        = chainCmp (chainCmp (compare_artists x y) (compare_alphanum x.title y.title))
            (compare_strings x.time y.time) := rfl
    have e2 : compare_time true (some x) (some y)
        = chainCmp (chainCmp (compare_artists x y) (compare_strings x.time y.time))
            (compare_alphanum x.title y.title) := rfl
    have e3 : compare_ratings true (some x) (some y)
        = chainCmp (compare_artists x y)
            (if x.rating < y.rating then -1 else if y.rating < x.rating then 1
             else compare_alpha true (some x) (some y)) := rfl
    have e4 : compare_views true (some x) (some y)
        = chainCmp (compare_artists x y)
            (if x.views < y.views then -1 else if y.views < x.views then 1
             else compare_alpha true (some x) (some y)) := rfl
    exact ⟨by simp [e1, chainCmp, hne], by simp [e2, chainCmp, hne],
      by simp [e3, chainCmp, hne], by simp [e4, chainCmp, hne]⟩
  · intro hb
    have hr1 : (if gb then compare_artists x y else (0 : Int)) = 0 := by
      rcases hb with hb | hb
      · subst hb
        rfl
      · cases gb <;> simp [hb]
    have e2 : compare_time gb (some x) (some y)
        = chainCmp (chainCmp (if gb then compare_artists x y else 0)
            (compare_strings x.time y.time)) (compare_alphanum x.title y.title) := rfl
    have e3 : compare_ratings gb (some x) (some y)
        = chainCmp (if gb then compare_artists x y else 0)
            (if x.rating < y.rating then -1 else if y.rating < x.rating then 1
             else compare_alpha gb (some x) (some y)) := rfl
    have e4 : compare_views gb (some x) (some y)
        = chainCmp (if gb then compare_artists x y else 0)
            (if x.views < y.views then -1 else if y.views < x.views then 1
             else compare_alpha gb (some x) (some y)) := rfl
    refine ⟨?_, ?_, ?_⟩
    · rw [e2, hr1, chainCmp_zero]
      rfl
    · rw [e3, hr1, chainCmp_zero]
    · rw [e4, hr1, chainCmp_zero]

/-- C5 witness: the comparator-structure theorem applied to concrete
records — artist grouping short-circuits for distinct artists, and with
grouping off the ratings comparator falls back numerically. -/
theorem c5_witness :
    compare_time true (some { artists := ["b"] }) (some { artists := ["a"] }) =
      compare_artists { artists := ["b"] } { artists := ["a"] } ∧
    compare_ratings false (some { rating := 1 }) (some { rating := 2 }) =
      (if ({ rating := 1 } : Dvk).rating < ({ rating := 2 } : Dvk).rating then -1
       else if ({ rating := 2 } : Dvk).rating < ({ rating := 1 } : Dvk).rating then 1
       else compare_alpha false (some { rating := 1 }) (some { rating := 2 })) :=
  ⟨((c5_comparator_structure true { artists := ["b"] } { artists := ["a"] }).2.1
      rfl (by decide)).2.1,
   ((c5_comparator_structure false { rating := 1 } { rating := 2 }).2.2
      (Or.inl rfl)).2.1⟩

/-! ### Claims about loading, the invariant and the accessors (C3, C4, C6) -/

theorem sorted_getD_lt (h : DvkHandler) (hInv : Inv h) (k : Nat)
    (hk : k < h.sorted.length) : h.sorted.getD k 0 < h.dvks.length := by
  have hmem : h.sorted.getD k 0 ∈ h.sorted := by
    rw [List.getD_eq_getElem _ _ hk]
    exact List.getElem_mem hk
  exact List.mem_range.mp (hInv.mem_iff.mp hmem)

/-- C3: an out-of-range index (negative or at least `get_size`) makes
both accessors return the sentinel empty record, and an in-range index
`i` makes `get_dvk_direct` return `records[i]` and `get_dvk_sorted`
return `records[order[i]]` (under the handler invariant). -/
theorem c3_index_access (h : DvkHandler) (i : Int) :
    ((i < 0 ∨ (get_size h : Int) ≤ i) →
      get_dvk_sorted h i = emptyDvk ∧ get_dvk_direct h i = emptyDvk) ∧
    (Inv h → 0 ≤ i → i < (get_size h : Int) →
      get_dvk_direct h i = h.dvks.getD i.toNat emptyDvk ∧
      get_dvk_sorted h i = h.dvks.getD (h.sorted.getD i.toNat 0) emptyDvk) := by
  constructor
  · intro hout
    have hneg : ¬ (-1 < i ∧ i < (get_size h : Int)) := by omega
    exact ⟨by rw [get_dvk_sorted, if_neg hneg], by rw [get_dvk_direct, if_neg hneg]⟩
  · intro hInv h0 hlt
    have hpos : -1 < i ∧ i < (get_size h : Int) := by omega
    have hik : i.toNat < h.sorted.length := by
      unfold get_size at hlt
      omega
    constructor
    · rw [get_dvk_direct, if_pos hpos]
    · rw [get_dvk_sorted, if_pos hpos]
      have hsz : h.sorted.getD i.toNat 0 < get_size h := by
        have hb := sorted_getD_lt h hInv i.toNat hik
        have hlen := hInv.length_eq
        rw [List.length_range] at hlen
        unfold get_size
        omega
      have hc : -1 < ((h.sorted.getD i.toNat 0 : Nat) : Int) ∧
          ((h.sorted.getD i.toNat 0 : Nat) : Int) < (get_size h : Int) := by
        constructor
        · omega
        · exact_mod_cast hsz
      rw [get_dvk_direct, if_pos hc]
      simp

/-- C3 witness: the accessor theorem applied to a concrete one-record
handler at the out-of-range index `-1` and the in-range index `0`. -/
theorem c3_witness :
    (get_dvk_sorted { dvks := [emptyDvk], sorted := [0] } (-1) = emptyDvk ∧
     get_dvk_direct { dvks := [emptyDvk], sorted := [0] } (-1) = emptyDvk) ∧
    (get_dvk_direct { dvks := [emptyDvk], sorted := [0] } 0 =
      ({ dvks := [emptyDvk], sorted := [0] } : DvkHandler).dvks.getD (0 : Int).toNat emptyDvk ∧
     get_dvk_sorted { dvks := [emptyDvk], sorted := [0] } 0 =
      ({ dvks := [emptyDvk], sorted := [0] } : DvkHandler).dvks.getD
        (({ dvks := [emptyDvk], sorted := [0] } : DvkHandler).sorted.getD (0 : Int).toNat 0)
        emptyDvk) :=
  ⟨(c3_index_access _ (-1)).1 (Or.inl (by decide)),
   (c3_index_access _ 0).2 (by decide) (by decide) (by decide)⟩

theorem foldl_append_eq_flatMap {α β : Type} (g : α → List β) (ds : List α)
    (acc : List β) :
    ds.foldl (fun a d => a ++ g d) acc = acc ++ ds.flatMap g := by
  induction ds generalizing acc with
  | nil => simp
  | cons d ds ih => simp [ih]

/-- C4: after `load_dvks` the records are exactly the loader's output
over the leaf directories in order (the previous records being gone),
the sorted list is the identity permutation `[0, ..., n-1]`, and
`get_size` is the total record count across all leaf directories. -/
theorem c4_load (fs : FileSys) (rd : String → List Dvk) (h : DvkHandler)
    (dirs : Option (List (Option String))) :
    (load_dvks fs rd h dirs).dvks = (get_directories fs dirs).flatMap rd ∧
    (load_dvks fs rd h dirs).sorted =
      List.range ((get_directories fs dirs).flatMap rd).length ∧
    get_size (load_dvks fs rd h dirs) =
      ((get_directories fs dirs).map (fun p => (rd p).length)).sum := by
  refine ⟨?_, ?_, ?_⟩
  · simp [load_dvks, reset_sorted, foldl_append_eq_flatMap]
  · simp [load_dvks, reset_sorted, foldl_append_eq_flatMap]
  · simp only [get_size, load_dvks, reset_sorted, foldl_append_eq_flatMap,
      List.nil_append, List.length_range, List.length_flatMap]
    rfl

/-- C6: the invariant — the sorted list is a permutation of
`0 .. n-1` for `n` the record count — holds for a fresh handler, after
every load, and after every sort, and under it the sorted-index
indirection always stays inside the records list. -/
theorem c6_invariant :
    Inv initHandler ∧
    (∀ fs rd h dirs, Inv (load_dvks fs rd h dirs)) ∧
    (∀ h st gb, Inv h → Inv (sort_dvks h st gb)) ∧
    (∀ h, Inv h → ∀ i : Int, 0 ≤ i → i < (get_size h : Int) →
      h.sorted.getD i.toNat 0 < h.dvks.length) := by
  refine ⟨List.Perm.refl _, ?_, ?_, ?_⟩
  · intro fs rd h dirs
    unfold Inv load_dvks reset_sorted
    exact List.Perm.refl _
  · intro h st gb hInv
    unfold Inv at hInv ⊢
    rw [sort_dvks_sorted_eq, (sort_dvks_dvks_perm h st gb).length_eq]
    exact hInv
  · intro h hInv i h0 hlt
    have hik : i.toNat < h.sorted.length := by
      unfold get_size at hlt
      omega
    exact sorted_getD_lt h hInv i.toNat hik

/-- C6 witness: the invariant theorem applied to a concrete handler —
it survives an alphabetic sort, and indexing stays in bounds. -/
theorem c6_witness :
    Inv (sort_dvks { dvks := [emptyDvk], sorted := [0] } (some "a") false) ∧
    ({ dvks := [emptyDvk], sorted := [0] } : DvkHandler).sorted.getD (0 : Int).toNat 0 <
      ({ dvks := [emptyDvk], sorted := [0] } : DvkHandler).dvks.length :=
  ⟨c6_invariant.2.2.1 _ (some "a") false (by decide),
   c6_invariant.2.2.2 _ (by decide) 0 (by decide) (by decide)⟩

/-! ### Claim C9: `same_ids` on an already-loaded handler -/

/-- C9: on an already-loaded handler, `same_ids` does not reload it —
the post-state is exactly the input handler sorted alphabetically with
artist grouping: its records are a permutation of the caller's records,
arranged in alphabetic artist-grouped order. -/
theorem c9_same_ids_mutation (fs : FileSys) (rd : String → List Dvk)
    (dirs : Option (List (Option String))) (h : DvkHandler) (hInv : Inv h) :
    (same_ids fs rd dirs (some h)).1 = sort_dvks h (some "a") true ∧
    (same_ids fs rd dirs (some h)).1.dvks.Perm h.dvks ∧
    (same_ids fs rd dirs (some h)).1.dvks.Pairwise
      (fun a b => compare_alpha true (some a) (some b) ≤ 0) := by
  have h1 : (same_ids fs rd dirs (some h)).1 = sort_dvks h (some "a") true := rfl
  have hca : comparator_of "a" true = compare_alpha true := by
    unfold comparator_of
    rw [if_neg (by decide), if_neg (by decide), if_neg (by decide)]
  refine ⟨h1, ?_, ?_⟩
  · rw [h1]
    exact sort_dvks_dvks_perm h (some "a") true
  · rw [h1]
    by_cases hsz : 0 < get_size h
    · rw [sort_dvks_some h "a" true hsz]
      exact List.Pairwise.imp (fun hab => by rwa [hca] at hab)
        (comparator_of_pairwise "a" true h.dvks)
    · rw [sort_dvks_some_empty h "a" true hsz]
      have hlen0 : h.dvks.length = 0 := by
        have hlen := hInv.length_eq
        rw [List.length_range] at hlen
        unfold get_size at hsz
        omega
      have hnil : h.dvks = [] := List.length_eq_zero.mp hlen0
      simp [hnil]

/-- C9 witness: the mutation theorem applied to a concrete handler. -/
theorem c9_witness :
    (same_ids ⟨fun _ => [], fun _ => []⟩ (fun _ => []) none
      (some { dvks := [emptyDvk], sorted := [0] })).1 =
      sort_dvks { dvks := [emptyDvk], sorted := [0] } (some "a") true :=
  (c9_same_ids_mutation ⟨fun _ => [], fun _ => []⟩ (fun _ => []) none
    { dvks := [emptyDvk], sorted := [0] } (by decide)).1

/-! ### The double scan of `same_ids` (towards C1 and C10) -/

theorem innerFold_mem (ids : List String) (i : Nat) :
    ∀ (ks : List Nat) (s : List Nat), i ∈ s →
      ks.foldl (innerStep ids i) s =
        s ++ ks.filter (fun k => decide (ids.getD i "" = ids.getD k "")) := by
  intro ks
  induction ks with
  | nil =>
    intro s hi
    simp
  | cons k ks ih =>
    intro s hi
    simp only [List.foldl_cons]
    by_cases hm : ids.getD i "" = ids.getD k ""
    · have hd : (decide (ids.getD i "" = ids.getD k "")) = true := decide_eq_true hm
      have hstep : innerStep ids i s k = s ++ [k] := by
        simp only [innerStep]
        rw [if_pos hm, if_pos hi]
      rw [hstep, ih _ (by simp [hi])]
      simp only [List.filter_cons, hd]
      simp
    · have hd : (decide (ids.getD i "" = ids.getD k "")) = false := decide_eq_false hm
      have hstep : innerStep ids i s k = s := by
        simp only [innerStep]
        rw [if_neg hm]
      rw [hstep, ih _ hi]
      simp only [List.filter_cons, hd]
      simp

theorem innerFold_not_mem (ids : List String) (i : Nat) :
    ∀ (ks : List Nat) (s : List Nat), i ∉ s →
      ks.foldl (innerStep ids i) s =
        s ++ (if ks.filter (fun k => decide (ids.getD i "" = ids.getD k "")) = []
              then []
              else i :: ks.filter (fun k => decide (ids.getD i "" = ids.getD k ""))) := by
  intro ks
  induction ks with
  | nil =>
    intro s hi
    simp
  | cons k ks ih =>
    intro s hi
    simp only [List.foldl_cons]
    by_cases hm : ids.getD i "" = ids.getD k ""
    · have hd : (decide (ids.getD i "" = ids.getD k "")) = true := decide_eq_true hm
      have hstep : innerStep ids i s k = (s ++ [i]) ++ [k] := by
        simp only [innerStep]
        rw [if_pos hm, if_neg hi]
      rw [hstep, innerFold_mem ids i ks _ (by simp)]
      simp only [List.filter_cons, hd]
      simp
    · have hd : (decide (ids.getD i "" = ids.getD k "")) = false := decide_eq_false hm
      have hstep : innerStep ids i s k = s := by
        simp only [innerStep]
        rw [if_neg hm]
      rw [hstep, ih _ hi]
      simp only [List.filter_cons, hd]
      simp

theorem innerScan_eq (ids : List String) (i : Nat) (s : List Nat) (hi : i ∉ s) :
    innerScan ids i s =
      s ++ (if matchesAfter ids i = [] then [] else i :: matchesAfter ids i) := by
  unfold innerScan matchesAfter
  exact innerFold_not_mem ids i _ s hi

theorem mem_matchesAfter {ids : List String} {i k : Nat} :
    k ∈ matchesAfter ids i ↔
      i < k ∧ k < ids.length ∧ ids.getD i "" = ids.getD k "" := by
  unfold matchesAfter
  simp only [List.mem_filter, List.mem_range'_1, decide_eq_true_eq]
  constructor
  · rintro ⟨⟨h1, h2⟩, h3⟩
    exact ⟨by omega, by omega, h3⟩
  · rintro ⟨h1, h2, h3⟩
    exact ⟨⟨by omega, by omega⟩, h3⟩

theorem mem_dupClustersUpTo {ids : List String} {n p : Nat} :
    p ∈ dupClustersUpTo ids n ↔
      ∃ i, i < n ∧ isClusterHead ids i ∧ (p = i ∨ p ∈ matchesAfter ids i) := by
  unfold dupClustersUpTo
  simp only [List.mem_flatten, List.mem_map, List.mem_filter, List.mem_range,
    decide_eq_true_eq]
  constructor
  · rintro ⟨l, ⟨i, ⟨hi, hhead⟩, rfl⟩, hp⟩
    rcases List.mem_cons.mp hp with heq | hp
    · exact ⟨i, hi, hhead, Or.inl heq⟩
    · exact ⟨i, hi, hhead, Or.inr hp⟩
  · rintro ⟨i, hi, hhead, hin⟩
    refine ⟨i :: matchesAfter ids i, ⟨i, ⟨hi, hhead⟩, rfl⟩, ?_⟩
    rcases hin with rfl | hp
    · exact List.mem_cons_self _ _
    · exact List.mem_cons_of_mem _ hp

theorem mem_upTo_of_earlier {ids : List String} {n j : Nat} (hn : n < ids.length)
    (hj : j < n) (he : ids.getD j "" = ids.getD n "") :
    n ∈ dupClustersUpTo ids n := by
  have hex : ∃ j', ids.getD j' "" = ids.getD n "" := ⟨j, he⟩
  have hj0 : ids.getD (Nat.find hex) "" = ids.getD n "" := Nat.find_spec hex
  have hj0le : Nat.find hex ≤ j := Nat.find_min' hex he
  have hj0lt : Nat.find hex < n := lt_of_le_of_lt hj0le hj
  have hfirst : ∀ j' < Nat.find hex,
      ids.getD j' "" ≠ ids.getD (Nat.find hex) "" := by
    intro j' hj' he'
    exact Nat.find_min hex hj' (he'.trans hj0)
  have hnm : n ∈ matchesAfter ids (Nat.find hex) :=
    mem_matchesAfter.mpr ⟨hj0lt, hn, hj0⟩
  exact mem_dupClustersUpTo.mpr
    ⟨Nat.find hex, hj0lt, ⟨hfirst, List.ne_nil_of_mem hnm⟩, Or.inr hnm⟩

theorem first_occ_head {ids : List String} {p : Nat} (hp : p < ids.length)
    (hdup : ∃ q, q < ids.length ∧ q ≠ p ∧ ids.getD q "" = ids.getD p "") :
    ∃ i, i ≤ p ∧ isClusterHead ids i ∧ (p = i ∨ p ∈ matchesAfter ids i) := by
  obtain ⟨q, hqlen, hqne, hq⟩ := hdup
  have hex : ∃ j, ids.getD j "" = ids.getD p "" := ⟨p, rfl⟩
  have hj0 : ids.getD (Nat.find hex) "" = ids.getD p "" := Nat.find_spec hex
  have hj0le : Nat.find hex ≤ p := Nat.find_min' hex rfl
  have hfirst : ∀ j < Nat.find hex,
      ids.getD j "" ≠ ids.getD (Nat.find hex) "" := by
    intro j hj he
    exact Nat.find_min hex hj (he.trans hj0)
  by_cases hjp : Nat.find hex = p
  · have hqp : p < q := by
      rcases lt_trichotomy q p with hlt | heq | hgt
      · exact absurd hq (Nat.find_min hex (by omega))
      · exact absurd heq hqne
      · exact hgt
    have hqm : q ∈ matchesAfter ids (Nat.find hex) :=
      mem_matchesAfter.mpr ⟨by omega, hqlen, by rw [hj0]; exact hq.symm⟩
    exact ⟨Nat.find hex, hj0le, ⟨hfirst, List.ne_nil_of_mem hqm⟩, Or.inl hjp.symm⟩
  · have hj0lt : Nat.find hex < p := lt_of_le_of_ne hj0le hjp
    have hpm : p ∈ matchesAfter ids (Nat.find hex) :=
      mem_matchesAfter.mpr ⟨hj0lt, hp, hj0⟩
    exact ⟨Nat.find hex, hj0le, ⟨hfirst, List.ne_nil_of_mem hpm⟩, Or.inr hpm⟩

theorem collides_of_mem_cluster {ids : List String} {i p : Nat}
    (hhead : isClusterHead ids i) (hin : p = i ∨ p ∈ matchesAfter ids i) :
    p < ids.length ∧
      ∃ q, q < ids.length ∧ q ≠ p ∧ ids.getD q "" = ids.getD p "" := by
  rcases hin with rfl | hp
  · obtain ⟨k, hk⟩ := List.exists_mem_of_ne_nil _ hhead.2
    obtain ⟨hik, hklen, hkid⟩ := mem_matchesAfter.mp hk
    exact ⟨by omega, k, hklen, by omega, hkid.symm⟩
  · obtain ⟨hip, hplen, hpid⟩ := mem_matchesAfter.mp hp
    exact ⟨hplen, i, by omega, by omega, hpid⟩

theorem sameIdsPositions_upTo (ids : List String) :
    ∀ n, n ≤ ids.length →
      (List.range n).foldl (outerStep ids) [] = dupClustersUpTo ids n := by
  intro n
  induction n with
  | zero =>
    intro _
    rfl
  | succ n ih =>
    intro hn1
    rw [List.range_succ, List.foldl_append, ih (by omega)]
    simp only [List.foldl_cons, List.foldl_nil]
    unfold outerStep
    have hsplit : dupClustersUpTo ids (n + 1) =
        dupClustersUpTo ids n ++
          (if isClusterHead ids n then n :: matchesAfter ids n else []) := by
      unfold dupClustersUpTo
      rw [List.range_succ, List.filter_append, List.map_append, List.flatten_append]
      by_cases hh : isClusterHead ids n
      · simp [hh]
      · simp [hh]
    by_cases hmem : n ∈ dupClustersUpTo ids n
    · rw [if_pos hmem, hsplit]
      have hnh : ¬ isClusterHead ids n := by
        obtain ⟨i, hi, hhead, hin⟩ := mem_dupClustersUpTo.mp hmem
        rcases hin with heq | hn'
        · exact absurd heq.symm (Nat.ne_of_lt hi)
        · intro hhead2
          exact hhead2.1 i (mem_matchesAfter.mp hn').1 (mem_matchesAfter.mp hn').2.2
      rw [if_neg hnh]
      simp
    · rw [if_neg hmem, hsplit, innerScan_eq ids n _ hmem]
      congr 1
      by_cases hm : matchesAfter ids n = []
      · rw [if_pos hm, if_neg (fun hh => hh.2 hm)]
      · rw [if_neg hm]
        have hfirst : ∀ j < n, ids.getD j "" ≠ ids.getD n "" := by
          intro j hj he
          exact hmem (mem_upTo_of_earlier (by omega) hj he)
        rw [if_pos ⟨hfirst, hm⟩]

theorem sameIdsPositions_eq (ids : List String) :
    sameIdsPositions ids = dupClusters ids := by
  unfold sameIdsPositions dupClusters
  exact sameIdsPositions_upTo ids ids.length (le_refl _)

theorem mem_dupClusters_iff {ids : List String} {p : Nat} :
    p ∈ dupClusters ids ↔
      p < ids.length ∧
        ∃ q, q < ids.length ∧ q ≠ p ∧ ids.getD q "" = ids.getD p "" := by
  unfold dupClusters
  constructor
  · intro hp
    obtain ⟨i, _, hhead, hin⟩ := mem_dupClustersUpTo.mp hp
    exact collides_of_mem_cluster hhead hin
  · rintro ⟨hp, q, hq⟩
    obtain ⟨i, hile, hhead, hin⟩ := first_occ_head hp ⟨q, hq⟩
    exact mem_dupClustersUpTo.mpr ⟨i, by omega, hhead, hin⟩

theorem matchesAfter_nodup (ids : List String) (i : Nat) :
    (matchesAfter ids i).Nodup := by
  unfold matchesAfter
  exact List.Nodup.filter _ (List.nodup_range' _ _)

theorem cluster_nodup (ids : List String) (i : Nat) :
    (i :: matchesAfter ids i).Nodup := by
  rw [List.nodup_cons]
  refine ⟨?_, matchesAfter_nodup ids i⟩
  intro hmem
  exact absurd (mem_matchesAfter.mp hmem).1 (lt_irrefl i)

theorem head_ne_ids {ids : List String} {i i' : Nat} (h1 : isClusterHead ids i)
    (h2 : isClusterHead ids i') (hne : i ≠ i') :
    ids.getD i "" ≠ ids.getD i' "" := by
  rcases Nat.lt_or_ge i i' with hlt | hge
  · exact fun he => h2.1 i hlt he
  · have hgt : i' < i := lt_of_le_of_ne hge (Ne.symm hne)
    exact fun he => h1.1 i' hgt he.symm

theorem mem_cluster_id {ids : List String} {i p : Nat}
    (hin : p ∈ i :: matchesAfter ids i) :
    ids.getD p "" = ids.getD i "" := by
  rcases List.mem_cons.mp hin with heq | hp
  · rw [heq]
  · exact ((mem_matchesAfter.mp hp).2.2).symm

theorem dupClusters_nodup (ids : List String) : (dupClusters ids).Nodup := by
  unfold dupClusters dupClustersUpTo
  rw [List.nodup_flatten]
  constructor
  · intro l hl
    obtain ⟨i, _, rfl⟩ := List.mem_map.mp hl
    exact cluster_nodup ids i
  · rw [List.pairwise_map]
    have hpw : ((List.range ids.length).filter
        (fun i => decide (isClusterHead ids i))).Pairwise (· ≠ ·) :=
      List.Nodup.filter _ (List.nodup_range _)
    refine List.Pairwise.imp_of_mem ?_ hpw
    intro a b ha hb hne
    have hha : isClusterHead ids a := of_decide_eq_true (List.mem_filter.mp ha).2
    have hhb : isClusterHead ids b := of_decide_eq_true (List.mem_filter.mp hb).2
    intro p hpa hpb
    exact head_ne_ids hha hhb hne ((mem_cluster_id hpa).symm.trans (mem_cluster_id hpb))

theorem idsOf_length (h : DvkHandler) : (idsOf h).length = get_size h := by
  rw [idsOf, List.length_map, List.length_range]

/-! ### Claims C1 and C10: the duplicate-ID detector -/

/-- C1: `same_ids` returns exactly the file paths of the sorted records
whose id collides with another record's id, emitted cluster by cluster —
each cluster is its first occurrence followed by the later matching
positions in ascending order, clusters ordered by their first
occurrence — and is empty when no two records share an id. -/
theorem c1_duplicate_detection (fs : FileSys) (rd : String → List Dvk)
    (dirs : Option (List (Option String))) (hOpt : Option DvkHandler) :
    (same_ids fs rd dirs hOpt).2 =
      (dupClusters (idsOf (same_ids fs rd dirs hOpt).1)).map
        (fun i => (get_dvk_sorted (same_ids fs rd dirs hOpt).1 (Int.ofNat i)).file) ∧
    (∀ p, p ∈ dupClusters (idsOf (same_ids fs rd dirs hOpt).1) ↔
      (p < (idsOf (same_ids fs rd dirs hOpt).1).length ∧
       ∃ q, q < (idsOf (same_ids fs rd dirs hOpt).1).length ∧ q ≠ p ∧
         (idsOf (same_ids fs rd dirs hOpt).1).getD q "" =
           (idsOf (same_ids fs rd dirs hOpt).1).getD p "")) ∧
    ((∀ p q, p < (idsOf (same_ids fs rd dirs hOpt).1).length →
        q < (idsOf (same_ids fs rd dirs hOpt).1).length → p ≠ q →
        (idsOf (same_ids fs rd dirs hOpt).1).getD p "" ≠
          (idsOf (same_ids fs rd dirs hOpt).1).getD q "") →
      (same_ids fs rd dirs hOpt).2 = []) := by
  have hfst : (same_ids fs rd dirs hOpt).2 =
      (sameIdsPositions (idsOf (same_ids fs rd dirs hOpt).1)).map
        (fun i => (get_dvk_sorted (same_ids fs rd dirs hOpt).1 (Int.ofNat i)).file) := rfl
  refine ⟨?_, fun p => mem_dupClusters_iff, ?_⟩
  · rw [hfst, sameIdsPositions_eq]
  · intro hnc
    have hnil : dupClusters (idsOf (same_ids fs rd dirs hOpt).1) = [] := by
      rw [List.eq_nil_iff_forall_not_mem]
      intro p hp
      obtain ⟨hplen, q, hqlen, hqne, hqe⟩ := mem_dupClusters_iff.mp hp
      exact hnc q p hqlen hplen hqne hqe
    rw [hfst, sameIdsPositions_eq, hnil]
    rfl

/-- C1 witness: duplicate detection on a concrete collision-free
(empty) handler returns the empty list. -/
theorem c1_witness :
    (same_ids ⟨fun _ => [], fun _ => []⟩ (fun _ => []) none (some initHandler)).2 = [] :=
  (c1_duplicate_detection ⟨fun _ => [], fun _ => []⟩ (fun _ => []) none
    (some initHandler)).2.2
    (by
      intro p q hp hq hne
      have h0 : (idsOf (same_ids ⟨fun _ => [], fun _ => []⟩ (fun _ => []) none
          (some initHandler)).1).length = 0 := rfl
      omega)

/-- C10: the double scan never marks a position twice, so the position
list is duplicate-free; hence when distinct sorted positions hold
distinct file paths, the path list returned by `same_ids` contains each
colliding record's path exactly once. -/
theorem c10_each_path_once (fs : FileSys) (rd : String → List Dvk)
    (dirs : Option (List (Option String))) (hOpt : Option DvkHandler) :
    (sameIdsPositions (idsOf (same_ids fs rd dirs hOpt).1)).Nodup ∧
    ((∀ p q : Nat, p < get_size (same_ids fs rd dirs hOpt).1 →
        q < get_size (same_ids fs rd dirs hOpt).1 → p ≠ q →
        (get_dvk_sorted (same_ids fs rd dirs hOpt).1 (p : Int)).file ≠
          (get_dvk_sorted (same_ids fs rd dirs hOpt).1 (q : Int)).file) →
      (same_ids fs rd dirs hOpt).2.Nodup) := by
  have hnd : (sameIdsPositions (idsOf (same_ids fs rd dirs hOpt).1)).Nodup := by
    rw [sameIdsPositions_eq]
    exact dupClusters_nodup _
  refine ⟨hnd, ?_⟩
  intro hinj
  have hfst : (same_ids fs rd dirs hOpt).2 =
      (sameIdsPositions (idsOf (same_ids fs rd dirs hOpt).1)).map
        (fun i => (get_dvk_sorted (same_ids fs rd dirs hOpt).1 (Int.ofNat i)).file) := rfl
  rw [hfst]
  refine @List.Nodup.map_on Nat String
    (sameIdsPositions (idsOf (same_ids fs rd dirs hOpt).1))
    (fun i => (get_dvk_sorted (same_ids fs rd dirs hOpt).1 (Int.ofNat i)).file) ?_ hnd
  intro x hx y hy hf
  by_contra hne
  rw [sameIdsPositions_eq] at hx hy
  have hx' := (mem_dupClusters_iff.mp hx).1
  have hy' := (mem_dupClusters_iff.mp hy).1
  rw [idsOf_length] at hx' hy'
  exact hinj x y hx' hy' hne hf

/-- C10 witness: on a concrete handler with pairwise-distinct paths the
returned path list is duplicate-free. -/
theorem c10_witness :
    (same_ids ⟨fun _ => [], fun _ => []⟩ (fun _ => []) none (some initHandler)).2.Nodup :=
  (c10_each_path_once ⟨fun _ => [], fun _ => []⟩ (fun _ => []) none
    (some initHandler)).2
    (by
      intro p q hp hq hne
      have h0 : get_size (same_ids ⟨fun _ => [], fun _ => []⟩ (fun _ => []) none
          (some initHandler)).1 = 0 := rfl
      omega)

/-! ### Claim C8: the directory scanner -/

theorem getDirs_paths_eq (fs : FileSys) (ds : List (Option String))
    (acc : List String) :
    ds.foldl (fun acc d =>
      match d with
      | none => acc
      | some s =>
        if s = "" then acc
        else acc ++ (fs.walk s).filter (hasDvkFile fs)) acc
    = acc ++ ds.flatMap (fun d =>
        match d with
        | none => []
        | some s =>
          if s = "" then []
          else (fs.walk s).filter (hasDvkFile fs)) := by
  induction ds generalizing acc with
  | nil => simp
  | cons d ds ih =>
    cases d with
    | none => simp [ih]
    | some s =>
      by_cases hs : s = ""
      · simp [hs, ih]
      · simp [hs, ih]

theorem strLe_trans : ∀ a b c : String, decide (a ≤ b) = true →
    decide (b ≤ c) = true → decide (a ≤ c) = true := by
  intro a b c h1 h2
  simp only [decide_eq_true_eq] at h1 h2 ⊢
  exact le_trans h1 h2

theorem strLe_total : ∀ a b : String,
    (decide (a ≤ b) || decide (b ≤ a)) = true := by
  intro a b
  simp only [Bool.or_eq_true, decide_eq_true_eq]
  exact le_total a b

/-- C8: the scanner's result contains a directory exactly when it is
reachable by the walk from some valid (non-`None`, non-empty) root entry
and directly contains a `.dvk` entry; the result is strictly sorted in
ascending lexical path order (hence duplicate-free); and a `None` input
or an empty input list produces the empty result. -/
theorem c8_get_directories (fs : FileSys) (dirs : Option (List (Option String))) :
    (∀ p, p ∈ get_directories fs dirs ↔
      (∃ ds, dirs = some ds ∧ ∃ d, d ∈ ds ∧ ∃ s, d = some s ∧ s ≠ "" ∧
        p ∈ fs.walk s ∧ hasDvkFile fs p = true)) ∧
    (get_directories fs dirs).Pairwise (· < ·) ∧
    (dirs = none → get_directories fs dirs = []) ∧
    (dirs = some [] → get_directories fs dirs = []) := by
  cases dirs with
  | none =>
    refine ⟨?_, ?_, fun _ => rfl, fun h => by cases h⟩
    · intro p
      constructor
      · intro hp
        cases hp
      · rintro ⟨ds, h, -⟩
        cases h
    · exact List.Pairwise.nil
  | some ds =>
    have hpaths : get_directories fs (some ds) =
        (clean_list (ds.flatMap (fun d =>
          match d with
          | none => []
          | some s =>
            if s = "" then []
            else (fs.walk s).filter (hasDvkFile fs)))).mergeSort
          (fun a b => decide (a ≤ b)) := by
      simp only [get_directories]
      rw [getDirs_paths_eq]
      rfl
    have hperm := List.mergeSort_perm
      (clean_list (ds.flatMap (fun d =>
        match d with
        | none => []
        | some s =>
          if s = "" then []
          else (fs.walk s).filter (hasDvkFile fs))))
      (fun a b => decide (a ≤ b))
    refine ⟨?_, ?_, ?_, ?_⟩
    · intro p
      rw [hpaths, hperm.mem_iff]
      unfold clean_list
      rw [List.mem_dedup, List.mem_flatMap]
      constructor
      · rintro ⟨d, hd, hp⟩
        refine ⟨ds, rfl, d, hd, ?_⟩
        cases d with
        | none => exact absurd hp (List.not_mem_nil p)
        | some s =>
          dsimp only at hp
          by_cases hs : s = ""
          · rw [if_pos hs] at hp
            exact absurd hp (List.not_mem_nil p)
          · rw [if_neg hs] at hp
            exact ⟨s, rfl, hs, (List.mem_filter.mp hp).1, (List.mem_filter.mp hp).2⟩
      · rintro ⟨ds', hds', d, hd, s, rfl, hs, hw, hf⟩
        obtain rfl : ds = ds' := Option.some_inj.mp hds'
        refine ⟨some s, hd, ?_⟩
        dsimp only
        rw [if_neg hs]
        exact List.mem_filter.mpr ⟨hw, hf⟩
    · rw [hpaths]
      have hle : (get_directories fs (some ds)).Pairwise
          (fun a b : String => decide (a ≤ b) = true) := by
        rw [hpaths]
        exact List.sorted_mergeSort strLe_trans strLe_total _
      rw [hpaths] at hle
      have hnd : ((clean_list (ds.flatMap (fun d =>
          match d with
          | none => []
          | some s =>
            if s = "" then []
            else (fs.walk s).filter (hasDvkFile fs)))).mergeSort
            (fun a b => decide (a ≤ b))).Nodup :=
        hperm.nodup_iff.mpr (List.nodup_dedup _)
      refine (hle.and hnd).imp ?_
      rintro a b ⟨h1, h2⟩
      exact lt_of_le_of_ne (of_decide_eq_true h1) h2
    · intro h
      cases h
    · intro hds
      obtain rfl : ds = [] := Option.some_inj.mp hds
      rw [hpaths]
      simp [clean_list]

/-- C8 witness: the scanner theorem applied to a concrete filesystem —
a `None` input and an empty root list each give the empty result. -/
theorem c8_witness :
    get_directories ⟨fun _ => [], fun _ => []⟩ none = [] ∧
    get_directories ⟨fun _ => [], fun _ => []⟩ (some []) = [] :=
  ⟨(c8_get_directories ⟨fun _ => [], fun _ => []⟩ none).2.2.1 rfl,
   (c8_get_directories ⟨fun _ => [], fun _ => []⟩ (some [])).2.2.2 rfl⟩

end DvkArchive
